import Mathlib

/-!
Shallow embedding of the reconciliation engine of the kailua validator
(`kailua-cli validate`, file `bin/cli/src/validate.rs`), covering:

* the `Proposal` record as constructed and appended by `handle_proposals`;
* one iteration of the registry scan loop (`processEntry`), including
  classification by extra-data length, the correctness rule, the challenge
  decision, the tree/map update and the proof-request decision;
* the scan over a factory-index range and the multi-pass validator loop with
  its `search_start_index` watermark;
* the proof-completion drain (`processProofMessage`).

On-chain reads (dispute game factory, game contracts, the op-node oracle and
the L2 node) are modelled as a `Chain` record of pure query functions, one per
contract getter used by the code.  Transactions and log lines the claims care
about are emitted as an explicit `Effect` list.  `anyhow` errors (`bail!`, `?`
propagation, failed transactions) become `Outcome.err`; Rust panics
(out-of-bounds `Vec` indexing, `Option::unwrap`) become `Outcome.crash`.
-/

/-- 32-byte hashes (`FixedBytes<32>`); only equality is ever used. -/
abbrev Hash := Nat

/-- Ethereum addresses; only equality is ever used. -/
abbrev Addr := Nat

/-- `pub const FAULT_PROOF_GAME_TYPE: u32 = 1337;` from `lib.rs`. -/
def FAULT_PROOF_GAME_TYPE : Nat := 1337

/-- The `Proposal` record exactly as populated by the `proposal_tree.push`
in `handle_proposals` (validate.rs, lines 365-375). -/
structure Proposal where
  factory_index : Nat
  game_address : Addr
  parent_local_index : Nat
  output_root : Hash
  output_block_number : Nat
  challenged : Bool
  proven : Bool
  resolved : Bool
  correct : Bool
deriving Repr, DecidableEq

/-- `risc0_zkvm::Receipt` as used by the validator: a journal byte vector and
the groth16 seal (`receipt.inner.groth16()` succeeds iff the seal is present). -/
structure Receipt where
  journal : List Nat
  groth16Seal : Option (List Nat)
deriving Repr, DecidableEq

/-- The duplex-channel `Message` enum of validate.rs. -/
inductive Message where
  | Proposal (local_index : Nat) (l1_head l2_head l2_output_root : Hash)
      (l2_block_number : Nat) (l2_claim : Hash)
  | Proof (local_index : Nat) (receipt : Receipt)
deriving Repr, DecidableEq

/-- A pure snapshot of every chain query `handle_proposals` makes.  Getter
names follow the contract calls in validate.rs; game-contract getters are
keyed by the address of the game (the `proxy_` returned by `gameAtIndex`). -/
structure Chain where
  gameTypeAt : Nat → Nat
  gameAddrAt : Nat → Addr
  rootClaim : Addr → Hash
  l2BlockNumber : Addr → Nat
  resolvedAt : Addr → Nat
  extraDataLen : Addr → Nat
  parentGameIndex : Addr → Nat
  challengedAt : Addr → Nat
  provenAt : Addr → Nat
  challengeOk : Addr → Bool
  challenger : Addr → Addr
  l1Head : Addr → Hash
  startingBlockNumber : Addr → Nat
  startingRootHash : Addr → Hash
  proofStatus : Addr → Nat
  outputAtBlock : Nat → Hash
  blockHash : Nat → Hash
  initBond : Nat
  validatorAddress : Addr

/-- The exclusive state of the Engine: `proposal_tree` and the
`factory_index → local_index` map (`HashMap` modelled as an association list
with newest binding first, as `List.lookup` finds the newest). -/
structure EngineState where
  proposal_tree : List Proposal
  proposal_index : List (Nat × Nat)
deriving Repr, DecidableEq

/-- Result of a piece of validator code: normal result, a propagated
`anyhow` error (fatal to the task), or a Rust panic. -/
inductive Outcome (α : Type) where
  | ok (a : α)
  | err (msg : String)
  | crash (msg : String)
deriving Repr, DecidableEq

def Outcome.isCrash {α : Type} : Outcome α → Bool
  | .crash _ => true
  | _ => false

def Outcome.isOk {α : Type} : Outcome α → Bool
  | .ok _ => true
  | _ => false

/-- Observable actions of the Engine that the claims are about: transactions
sent and the log lines accompanying skip/defer decisions. -/
inductive Effect where
  /-- `error!("SKIPPED: Could not find parent local index ...")` + `continue`. -/
  | logSkipNoParent (factory_index : Nat)
  /-- `game_contract.challenge().value(bond/2).send()`: a challenge
  transaction paying the given stake. -/
  | challengeTx (address : Addr) (stake : Nat)
  /-- `warn!("Skipping proving ... with bad parent output.")` followed by the
  parent-status log lines (records the `challenged` and `correct` flags of the parent). -/
  | logDeferProving (local_index : Nat) (parent_challenged : Bool)
      (parent_correct : Bool)
  /-- `channel.sender.send(Message::Proposal { .. })`. -/
  | proofRequest (m : Message)
  /-- `game_contract.prove(snark.seal, is_fault_proof).send()`. -/
  | proveTx (address : Addr) (snark_seal : List Nat) (is_fault_proof : Bool)
  /-- `warn!("Skipping proof submission for already proven game ...")`. -/
  | logSkipProven (local_index : Nat)
deriving Repr, DecidableEq

/-- The `match extra_data.len()` classification (validate.rs, lines 310-331):
yields `(parent_local_index, challenged, proven)`; `none` models the
parent-not-found `continue`; `Outcome.err` models the `bail!` arm. -/
def classifyEntry (ch : Chain) (st : EngineState) (game_address : Addr)
    (local_index : Nat) : Outcome (Option (Nat × Bool × Bool)) :=
  if ch.extraDataLen game_address = 0x10 then
    match st.proposal_index.lookup (ch.parentGameIndex game_address) with
    | none => .ok none
    | some parent_local_index =>
        .ok (some (parent_local_index,
          decide (ch.challengedAt game_address > 0),
          decide (ch.provenAt game_address > 0)))
  else if ch.extraDataLen game_address = 0x20 then
    .ok (some (local_index, false, false))
  else
    .err "Unexpected extra data length"

/-- The correctness rule (validate.rs, lines 333-345).  The parent read
`proposal_tree[parent_local_index]` panics if out of bounds, as Rust `Vec`
indexing does. -/
def computeCorrect (st : EngineState) (local_output_root output_root : Hash)
    (parent_local_index local_index : Nat) : Outcome Bool :=
  if local_output_root ≠ output_root then
    .ok false
  else if parent_local_index ≠ local_index then
    match st.proposal_tree.get? parent_local_index with
    | some parent => .ok parent.correct
    | none => .crash "index out of bounds"
  else
    .ok true

/-- The challenge decision (validate.rs, lines 346-360): challenge iff
`!correct && !challenged`; a failed transaction is a propagated error;
on success the local `challenged` flag is set to `true`. -/
def challengeDecision (ch : Chain) (game_address : Addr)
    (correct challenged : Bool) : Outcome (Bool × List Effect) :=
  if !correct && !challenged then
    if ch.challengeOk game_address then
      .ok (true, [Effect.challengeTx game_address (ch.initBond / 2)])
    else
      .err "challenge"
  else
    .ok (challenged, [])

/-- The proof-request decision (validate.rs, lines 376-451), evaluated against
the tree `st1` that already contains the proposal just pushed: if the proposal
is challenged, unproven and this validator is the recorded challenger, either
defer (starting output root disagrees with the oracle, logging the parent
status) or send a `Message::Proposal` proof request. -/
def proofRequestDecision (ch : Chain) (st1 : EngineState)
    (local_index parent_local_index output_block_number : Nat)
    (output_root : Hash) (game_address : Addr)
    (challenged proven : Bool) : Outcome (List Effect) :=
  if challenged && !proven &&
      (ch.challenger game_address == ch.validatorAddress) then
    let l1_head := ch.l1Head game_address
    let l2_head_number := ch.startingBlockNumber game_address
    let l2_head := ch.blockHash l2_head_number
    let l2_output_root := ch.startingRootHash game_address
    let local_output_root := ch.outputAtBlock l2_head_number
    if l2_output_root ≠ local_output_root then
      match st1.proposal_tree.get? parent_local_index with
      | some parent =>
          .ok [Effect.logDeferProving local_index parent.challenged
            parent.correct]
      | none => .crash "index out of bounds"
    else
      .ok [Effect.proofRequest (Message.Proposal local_index l1_head
        l2_head l2_output_root output_block_number output_root)]
  else
    .ok []

/-- One iteration of the scan loop body (validate.rs, lines 287-451) for a
single factory index: fetch, classify, decide correctness, challenge,
append to the tree, and the proof-request decision. -/
def processEntry (ch : Chain) (st : EngineState) (factory_index : Nat) :
    Outcome (EngineState × List Effect) :=
  if ch.gameTypeAt factory_index ≠ FAULT_PROOF_GAME_TYPE then
    .ok (st, [])
  else
    let game_address := ch.gameAddrAt factory_index
    let output_root := ch.rootClaim game_address
    let output_block_number := ch.l2BlockNumber game_address
    let resolved := decide (ch.resolvedAt game_address > 0)
    let local_index := st.proposal_tree.length
    match classifyEntry ch st game_address local_index with
    | .err s => .err s
    | .crash s => .crash s
    | .ok none => .ok (st, [Effect.logSkipNoParent factory_index])
    | .ok (some (parent_local_index, challenged0, proven)) =>
      let local_output_root := ch.outputAtBlock output_block_number
      match computeCorrect st local_output_root output_root
          parent_local_index local_index with
      | .err s => .err s
      | .crash s => .crash s
      | .ok correct =>
        match challengeDecision ch game_address correct challenged0 with
        | .err s => .err s
        | .crash s => .crash s
        | .ok (challenged, challenge_effects) =>
          let st1 : EngineState :=
            { proposal_tree := st.proposal_tree ++
                [{ factory_index, game_address, parent_local_index,
                   output_root, output_block_number,
                   challenged, proven, resolved, correct }],
              proposal_index := (factory_index, local_index) ::
                st.proposal_index }
          match proofRequestDecision ch st1 local_index parent_local_index
              output_block_number output_root game_address
              challenged proven with
          | .err s => .err s
          | .crash s => .crash s
          | .ok request_effects =>
              .ok (st1, challenge_effects ++ request_effects)

/-- The factory indices `search_start_index..game_count` scanned in one pass
(a Rust range: empty when the start is not below the count). -/
def scanIndices (search_start_index game_count : Nat) : List Nat :=
  List.range' search_start_index (game_count - search_start_index)

/-- Scan a list of factory indices, threading the Engine state and recording
the effects of each index; stops at the first fatal error or panic, keeping the
trace produced so far. -/
def processRange (ch : Chain) (st : EngineState) :
    List Nat → List (Nat × List Effect) × Outcome EngineState
  | [] => ([], .ok st)
  | i :: rest =>
    match processEntry ch st i with
    | .err s => ([], .err s)
    | .crash s => ([], .crash s)
    | .ok (st1, effs) =>
      ((i, effs) :: (processRange ch st1 rest).1,
       (processRange ch st1 rest).2)

/-- Engine state plus the scan watermark (`search_start_index`). -/
structure ValidatorState where
  engine : EngineState
  search_start_index : Nat
deriving Repr, DecidableEq

/-- The validator loop (validate.rs, lines 279-491), scan part: each pass
observes a game count under a chain snapshot, scans from the watermark to
that count, then sets the watermark to the observed count (line 453). -/
def runPasses (st : ValidatorState) :
    List (Chain × Nat) → List (Nat × List Effect) × Outcome ValidatorState
  | [] => ([], .ok st)
  | (ch, game_count) :: rest =>
    match processRange ch st.engine
        (scanIndices st.search_start_index game_count) with
    | (trace, .err s) => (trace, .err s)
    | (trace, .crash s) => (trace, .crash s)
    | (trace, .ok e1) =>
      (trace ++ (runPasses ⟨e1, game_count⟩ rest).1,
       (runPasses ⟨e1, game_count⟩ rest).2)

/-- The proof-completion drain body (validate.rs, lines 455-486) for one
received message: a non-`Proof` variant is a `bail!`; the proposal lookup is
panicking `Vec` indexing; `receipt.journal.bytes.last().unwrap()` panics on an
empty journal; the proof is submitted only when `proofStatus` is 0, and
`receipt.inner.groth16()?` propagates an error when the seal is absent. -/
def processProofMessage (ch : Chain) (proposal_tree : List Proposal) :
    Message → Outcome (List Effect)
  | Message.Proposal _ _ _ _ _ _ => .err "Unexpected message type."
  | Message.Proof local_index receipt =>
    match proposal_tree.get? local_index with
    | none => .crash "index out of bounds"
    | some proposal =>
      match receipt.journal.getLast? with
      | none => .crash "unwrap on empty journal"
      | some last_byte =>
        let is_fault_proof := decide (last_byte > 0)
        if ch.proofStatus proposal.game_address = 0 then
          match receipt.groth16Seal with
          | none => .err "not a groth16 receipt"
          | some snark_seal =>
              .ok [Effect.proveTx proposal.game_address snark_seal
                is_fault_proof]
        else
          .ok [Effect.logSkipProven local_index]

/-- Number of challenge transactions in an effect list. -/
def challengeCount (effs : List Effect) : Nat :=
  (effs.filter (fun e => match e with
    | Effect.challengeTx _ _ => true
    | _ => false)).length

/-- Total weight, under a per-entry weight function `f`, that a run trace
accumulated while processing the given factory index. -/
def weightFor (f : List Effect → Nat) (trace : List (Nat × List Effect))
    (i : Nat) : Nat :=
  ((trace.filter (fun e => e.1 == i)).map (fun e => f e.2)).sum

/-- Number of challenge transactions a run trace issued while processing the
given factory index. -/
def challengesFor (trace : List (Nat × List Effect)) (i : Nat) : Nat :=
  weightFor challengeCount trace i

/-- Number of times a run trace processed the given factory index. -/
def timesProcessed (trace : List (Nat × List Effect)) (i : Nat) : Nat :=
  weightFor (fun _ => 1) trace i

/-- Whether an effect list contains a proof request. -/
def hasProofRequest (effs : List Effect) : Bool :=
  effs.any (fun e => match e with
    | Effect.proofRequest _ => true
    | _ => false)

/-- `factory_index → local_index` map invariant: every local index the map
yields points inside the proposal tree. -/
def mapInv (st : EngineState) : Prop :=
  ∀ fi li, st.proposal_index.lookup fi = some li →
    li < st.proposal_tree.length

/-! ## Concrete witness data -/

/-- A chain snapshot with a single correct root (setup) proposal; the
recorded challenger is not this validator. -/
def chRootOk : Chain where
  gameTypeAt := fun _ => 1337
  gameAddrAt := fun i => 100 + i
  rootClaim := fun _ => 5
  l2BlockNumber := fun _ => 10
  resolvedAt := fun _ => 0
  extraDataLen := fun _ => 0x20
  parentGameIndex := fun _ => 0
  challengedAt := fun _ => 0
  provenAt := fun _ => 0
  challengeOk := fun _ => true
  challenger := fun _ => 8
  l1Head := fun _ => 1
  startingBlockNumber := fun _ => 0
  startingRootHash := fun _ => 2
  proofStatus := fun _ => 0
  outputAtBlock := fun _ => 5
  blockHash := fun _ => 3
  initBond := 10
  validatorAddress := 7

/-- The proposal `processEntry chRootOk ⟨[], []⟩ 0` appends. -/
def pRootOk : Proposal where
  factory_index := 0
  game_address := 100
  parent_local_index := 0
  output_root := 5
  output_block_number := 10
  challenged := false
  proven := false
  resolved := false
  correct := true

/-- A receipt carrying a recognizable groth16 fault-proof artifact. -/
def rFault : Receipt := { journal := [0, 1], groth16Seal := some [9] }

/-- A receipt whose journal (public output) is empty. -/
def rEmpty : Receipt := { journal := [], groth16Seal := some [9] }

/-- A chain snapshot identical to `chRootOk` except the single game is
already proven on-chain (`proofStatus = 1`). -/
def chProven : Chain := { chRootOk with proofStatus := fun _ => 1 }

/-- A chain snapshot with a single incorrect root proposal (oracle returns 6
at the claimed block, the claim is 5); the challenge transaction succeeds and
the recorded challenger is not this validator. -/
def chRootBad : Chain := { chRootOk with outputAtBlock := fun _ => 6 }

/-- `chRootBad` but with a failing challenge transaction. -/
def chRootBadNoOk : Chain := { chRootBad with challengeOk := fun _ => false }

/-- The proposal `processEntry chRootBad ⟨[], []⟩ 0` appends. -/
def pRootBad : Proposal where
  factory_index := 0
  game_address := 100
  parent_local_index := 0
  output_root := 5
  output_block_number := 10
  challenged := true
  proven := false
  resolved := false
  correct := false

/-- An incorrect root proposal whose successful challenge leaves this
validator as the recorded challenger, with the starting output root agreeing
with the oracle: a proof request must be sent. -/
def chRootBadReq : Chain :=
  { chRootOk with
      outputAtBlock := fun b => if b = 10 then 6 else 2
      challenger := fun _ => 7 }

/-- A chain snapshot whose single entry has an auxiliary payload of an
unrecognized byte length (five bytes). -/
def chBadExtra : Chain := { chRootOk with extraDataLen := fun _ => 5 }

/-- A chain snapshot whose single entry is a child proposal (payload length
0x10) whose parent factory index is unknown to the local map. -/
def chNoParent : Chain := { chRootOk with extraDataLen := fun _ => 0x10 }

/-- Proposal-tree invariant: the parent index of every stored proposal does not
exceed its own local index. -/
def treeInv (st : EngineState) : Prop :=
  ∀ k q, st.proposal_tree.get? k = some q → q.parent_local_index ≤ k

/-! ## Helper lemmas -/

/-- Appending a proposal strictly grows the tree, so a skip step never
satisfies an append equation. -/
theorem self_append_ne (l : List Proposal) (p : Proposal) :
    l ≠ l ++ [p] := by
  intro h
  have := congrArg List.length h
  simp at this

theorem computeCorrect_spec (st : EngineState) (lor oroot : Hash)
    (pli li : Nat) (c : Bool)
    (h : computeCorrect st lor oroot pli li = .ok c) :
    (lor ≠ oroot → c = false) ∧
    (lor = oroot → pli ≠ li →
      ∀ q, st.proposal_tree.get? pli = some q → c = q.correct) ∧
    (lor = oroot → pli = li → c = true) := by
  by_cases hr : lor = oroot
  · by_cases hp : pli = li
    · refine ⟨fun hne => absurd hr hne, fun _ hne => absurd hp hne, fun _ _ => ?_⟩
      simp [computeCorrect, hr, hp] at h
      simp_all
    · refine ⟨fun hne => absurd hr hne, ?_, fun _ heq => absurd heq hp⟩
      intro _ _ q hq
      simp only [computeCorrect, hr, ne_eq, not_true_eq_false, if_false, hp,
        not_false_eq_true, if_true, hq] at h
      cases h
      rfl
  · refine ⟨fun _ => ?_, fun heq => absurd heq hr, fun heq => absurd heq hr⟩
    simp only [computeCorrect, ne_eq, hr, not_false_eq_true, if_true] at h
    cases h
    rfl

theorem challengeDecision_ok_spec (ch : Chain) (a : Addr) (c c0 c1 : Bool)
    (ce : List Effect)
    (h : challengeDecision ch a c c0 = .ok (c1, ce)) :
    (c = false ∧ c0 = false →
      ch.challengeOk a = true ∧ c1 = true ∧
      ce = [Effect.challengeTx a (ch.initBond / 2)]) ∧
    ((c = true ∨ c0 = true) → c1 = c0 ∧ ce = []) := by
  constructor
  · rintro ⟨hc, hc0⟩
    subst hc
    subst hc0
    cases hok : ch.challengeOk a
    · simp [challengeDecision, hok] at h
    · simp only [challengeDecision, Bool.not_false, Bool.and_self, if_true,
        hok] at h
      cases h
      exact ⟨rfl, rfl, rfl⟩
  · rintro (hc | hc) <;> subst hc <;>
      simp only [challengeDecision, Bool.not_true, Bool.false_and,
        Bool.and_false, Bool.false_eq_true, if_false] at h <;>
      cases h <;> exact ⟨rfl, rfl⟩

theorem challengeDecision_err (ch : Chain) (a : Addr)
    (hnok : ch.challengeOk a = false) :
    challengeDecision ch a false false = .err "challenge" := by
  simp [challengeDecision, hnok]

theorem proofRequestDecision_spec (ch : Chain) (st1 : EngineState)
    (li pli obn : Nat) (oroot : Hash) (a : Addr) (c1 pv : Bool)
    (re : List Effect)
    (h : proofRequestDecision ch st1 li pli obn oroot a c1 pv = .ok re) :
    (c1 = true ∧ pv = false ∧ ch.challenger a = ch.validatorAddress →
      (ch.startingRootHash a ≠ ch.outputAtBlock (ch.startingBlockNumber a) →
        ∃ q, st1.proposal_tree.get? pli = some q ∧
          re = [Effect.logDeferProving li q.challenged q.correct]) ∧
      (ch.startingRootHash a = ch.outputAtBlock (ch.startingBlockNumber a) →
        re = [Effect.proofRequest (Message.Proposal li (ch.l1Head a)
          (ch.blockHash (ch.startingBlockNumber a))
          (ch.startingRootHash a) obn oroot)])) ∧
    (¬(c1 = true ∧ pv = false ∧ ch.challenger a = ch.validatorAddress) →
      re = []) := by
  constructor
  · rintro ⟨hc1, hpv, hch⟩
    subst hc1
    subst hpv
    constructor
    · intro hne
      cases hq : st1.proposal_tree.get? pli with
      | none =>
        simp only [proofRequestDecision, Bool.not_false, Bool.and_self,
          Bool.true_and, hch, beq_self_eq_true, if_true, ne_eq, hne,
          not_false_eq_true, hq] at h
        exact absurd h (by simp)
      | some q =>
        simp only [proofRequestDecision, Bool.not_false, Bool.and_self,
          Bool.true_and, hch, beq_self_eq_true, if_true, ne_eq, hne,
          not_false_eq_true, hq] at h
        cases h
        exact ⟨q, rfl, rfl⟩
    · intro heq
      simp only [proofRequestDecision, Bool.not_false, Bool.and_self,
        Bool.true_and, hch, beq_self_eq_true, if_true, ne_eq, heq,
        not_true_eq_false, if_false] at h
      cases h
      rw [heq]
  · intro hn
    have hcond : (c1 && !pv && (ch.challenger a == ch.validatorAddress)) = false := by
      by_contra hne
      apply hn
      have := eq_true_of_ne_false hne
      simp only [Bool.and_eq_true, Bool.not_eq_true', beq_iff_eq] at this
      exact ⟨this.1.1, this.1.2, this.2⟩
    simp only [proofRequestDecision, hcond, Bool.false_eq_true, if_false] at h
    cases h
    rfl

/-- Master characterization of a scan-loop iteration that appended a
proposal: recovers the classification, correctness, challenge and
proof-request equations together with the fields of the appended record. -/
theorem processEntry_ok_append (ch : Chain) (st : EngineState) (i : Nat)
    (st2 : EngineState) (effs : List Effect) (p : Proposal)
    (hrun : processEntry ch st i = .ok (st2, effs))
    (happ : st2.proposal_tree = st.proposal_tree ++ [p]) :
    ∃ challenged0 challenge_effects request_effects,
      classifyEntry ch st (ch.gameAddrAt i) st.proposal_tree.length =
        .ok (some (p.parent_local_index, challenged0, p.proven)) ∧
      computeCorrect st
        (ch.outputAtBlock (ch.l2BlockNumber (ch.gameAddrAt i)))
        (ch.rootClaim (ch.gameAddrAt i)) p.parent_local_index
        st.proposal_tree.length = .ok p.correct ∧
      challengeDecision ch (ch.gameAddrAt i) p.correct challenged0 =
        .ok (p.challenged, challenge_effects) ∧
      proofRequestDecision ch st2 st.proposal_tree.length
        p.parent_local_index p.output_block_number p.output_root
        (ch.gameAddrAt i) p.challenged p.proven = .ok request_effects ∧
      effs = challenge_effects ++ request_effects ∧
      p.factory_index = i ∧
      p.game_address = ch.gameAddrAt i ∧
      p.output_root = ch.rootClaim (ch.gameAddrAt i) ∧
      p.output_block_number = ch.l2BlockNumber (ch.gameAddrAt i) ∧
      st2.proposal_index = (i, st.proposal_tree.length) :: st.proposal_index
    := by
  unfold processEntry at hrun
  by_cases hgt : ch.gameTypeAt i ≠ FAULT_PROOF_GAME_TYPE
  · rw [if_pos hgt] at hrun
    cases hrun
    exact absurd happ (by simp [self_append_ne st.proposal_tree p])
  · rw [if_neg hgt] at hrun
    dsimp only at hrun
    cases hclass : classifyEntry ch st (ch.gameAddrAt i)
        st.proposal_tree.length with
    | err s => rw [hclass] at hrun; exact absurd hrun (by simp)
    | crash s => rw [hclass] at hrun; exact absurd hrun (by simp)
    | ok trip =>
      rw [hclass] at hrun
      cases trip with
      | none =>
        dsimp only at hrun
        cases hrun
        exact absurd happ (by simp [self_append_ne st.proposal_tree p])
      | some trip =>
        obtain ⟨pli, c0, pv⟩ := trip
        dsimp only at hrun
        cases hcc : computeCorrect st
            (ch.outputAtBlock (ch.l2BlockNumber (ch.gameAddrAt i)))
            (ch.rootClaim (ch.gameAddrAt i)) pli
            st.proposal_tree.length with
        | err s => rw [hcc] at hrun; exact absurd hrun (by simp)
        | crash s => rw [hcc] at hrun; exact absurd hrun (by simp)
        | ok correct =>
          rw [hcc] at hrun
          dsimp only at hrun
          cases hcd : challengeDecision ch (ch.gameAddrAt i) correct c0 with
          | err s => rw [hcd] at hrun; exact absurd hrun (by simp)
          | crash s => rw [hcd] at hrun; exact absurd hrun (by simp)
          | ok pair =>
            obtain ⟨challenged, ce⟩ := pair
            rw [hcd] at hrun
            dsimp only at hrun
            cases hprd : proofRequestDecision ch
                ⟨st.proposal_tree ++
                  [⟨i, ch.gameAddrAt i, pli, ch.rootClaim (ch.gameAddrAt i),
                    ch.l2BlockNumber (ch.gameAddrAt i), challenged, pv,
                    decide (ch.resolvedAt (ch.gameAddrAt i) > 0), correct⟩],
                  (i, st.proposal_tree.length) :: st.proposal_index⟩
                st.proposal_tree.length pli
                (ch.l2BlockNumber (ch.gameAddrAt i))
                (ch.rootClaim (ch.gameAddrAt i)) (ch.gameAddrAt i)
                challenged pv with
            | err s => rw [hprd] at hrun; exact absurd hrun (by simp)
            | crash s => rw [hprd] at hrun; exact absurd hrun (by simp)
            | ok re =>
              rw [hprd] at hrun
              dsimp only at hrun
              rw [Outcome.ok.injEq, Prod.mk.injEq] at hrun
              obtain ⟨hst2, heffs⟩ := hrun
              subst hst2
              dsimp only at happ
              have hsing := List.append_cancel_left happ
              have hpeq := (List.cons.inj hsing).1
              subst hpeq
              refine ⟨c0, ce, re, ?_, ?_, ?_, ?_, ?_, ?_, ?_, ?_, ?_, ?_⟩
              · rfl
              · exact hcc
              · exact hcd
              · exact hprd
              · exact heffs.symm
              · rfl
              · rfl
              · rfl
              · rfl
              · rfl

theorem weightFor_nil (f : List Effect → Nat) (i : Nat) :
    weightFor f [] i = 0 := rfl

theorem weightFor_cons (f : List Effect → Nat) (j : Nat) (effs : List Effect)
    (t : List (Nat × List Effect)) (i : Nat) :
    weightFor f ((j, effs) :: t) i =
      (if j = i then f effs else 0) + weightFor f t i := by
  by_cases h : j = i <;> simp [weightFor, List.filter_cons, h]

theorem weightFor_append (f : List Effect → Nat)
    (t1 t2 : List (Nat × List Effect)) (i : Nat) :
    weightFor f (t1 ++ t2) i = weightFor f t1 i + weightFor f t2 i := by
  simp [weightFor, List.filter_append]

/-- The effect lists a successful `challengeDecision` can produce. -/
theorem challengeDecision_effects (ch : Chain) (a : Addr) (c c0 c1 : Bool)
    (ce : List Effect)
    (h : challengeDecision ch a c c0 = .ok (c1, ce)) :
    ce = [] ∨ ce = [Effect.challengeTx a (ch.initBond / 2)] := by
  unfold challengeDecision at h
  split at h
  · split at h
    · cases h
      exact Or.inr rfl
    · exact absurd h (by simp)
  · cases h
    exact Or.inl rfl

/-- The effect lists a successful `proofRequestDecision` can produce. -/
theorem proofRequestDecision_effects (ch : Chain) (st1 : EngineState)
    (li pli obn : Nat) (oroot : Hash) (a : Addr) (c1 pv : Bool)
    (re : List Effect)
    (h : proofRequestDecision ch st1 li pli obn oroot a c1 pv = .ok re) :
    re = [] ∨ (∃ pc pcor, re = [Effect.logDeferProving li pc pcor]) ∨
      ∃ m, re = [Effect.proofRequest m] := by
  unfold proofRequestDecision at h
  split at h
  · dsimp only at h
    split at h
    · split at h
      · cases h
        exact Or.inr (Or.inl ⟨_, _, rfl⟩)
      · exact absurd h (by simp)
    · cases h
      exact Or.inr (Or.inr ⟨_, rfl⟩)
  · cases h
    exact Or.inl rfl

/-- The shape of the effect list of any successful scan-loop iteration:
at most one challenge transaction, coming first when present. -/
theorem processEntry_effects_shape (ch : Chain) (st : EngineState) (i : Nat)
    (st2 : EngineState) (effs : List Effect)
    (hrun : processEntry ch st i = .ok (st2, effs)) :
    effs = [] ∨ effs = [Effect.logSkipNoParent i] ∨
    ∃ ce re, effs = ce ++ re ∧
      (ce = [] ∨ ce = [Effect.challengeTx (ch.gameAddrAt i)
        (ch.initBond / 2)]) ∧
      (re = [] ∨ (∃ li pc pcor, re = [Effect.logDeferProving li pc pcor]) ∨
        ∃ m, re = [Effect.proofRequest m]) := by
  unfold processEntry at hrun
  by_cases hgt : ch.gameTypeAt i ≠ FAULT_PROOF_GAME_TYPE
  · rw [if_pos hgt] at hrun
    cases hrun
    exact Or.inl rfl
  · rw [if_neg hgt] at hrun
    dsimp only at hrun
    cases hclass : classifyEntry ch st (ch.gameAddrAt i)
        st.proposal_tree.length with
    | err s => rw [hclass] at hrun; exact absurd hrun (by simp)
    | crash s => rw [hclass] at hrun; exact absurd hrun (by simp)
    | ok trip =>
      rw [hclass] at hrun
      cases trip with
      | none =>
        dsimp only at hrun
        cases hrun
        exact Or.inr (Or.inl rfl)
      | some trip =>
        obtain ⟨pli, c0, pv⟩ := trip
        dsimp only at hrun
        cases hcc : computeCorrect st
            (ch.outputAtBlock (ch.l2BlockNumber (ch.gameAddrAt i)))
            (ch.rootClaim (ch.gameAddrAt i)) pli
            st.proposal_tree.length with
        | err s => rw [hcc] at hrun; exact absurd hrun (by simp)
        | crash s => rw [hcc] at hrun; exact absurd hrun (by simp)
        | ok correct =>
          rw [hcc] at hrun
          dsimp only at hrun
          cases hcd : challengeDecision ch (ch.gameAddrAt i) correct c0 with
          | err s => rw [hcd] at hrun; exact absurd hrun (by simp)
          | crash s => rw [hcd] at hrun; exact absurd hrun (by simp)
          | ok pair =>
            obtain ⟨challenged, ce⟩ := pair
            rw [hcd] at hrun
            dsimp only at hrun
            cases hprd : proofRequestDecision ch
                ⟨st.proposal_tree ++
                  [⟨i, ch.gameAddrAt i, pli, ch.rootClaim (ch.gameAddrAt i),
                    ch.l2BlockNumber (ch.gameAddrAt i), challenged, pv,
                    decide (ch.resolvedAt (ch.gameAddrAt i) > 0), correct⟩],
                  (i, st.proposal_tree.length) :: st.proposal_index⟩
                st.proposal_tree.length pli
                (ch.l2BlockNumber (ch.gameAddrAt i))
                (ch.rootClaim (ch.gameAddrAt i)) (ch.gameAddrAt i)
                challenged pv with
            | err s => rw [hprd] at hrun; exact absurd hrun (by simp)
            | crash s => rw [hprd] at hrun; exact absurd hrun (by simp)
            | ok re =>
              rw [hprd] at hrun
              dsimp only at hrun
              rw [Outcome.ok.injEq, Prod.mk.injEq] at hrun
              have hre := proofRequestDecision_effects ch _ _ _ _ _ _ _ _ _
                hprd
              refine Or.inr (Or.inr ⟨ce, re, hrun.2.symm,
                challengeDecision_effects ch (ch.gameAddrAt i) correct c0
                  challenged ce hcd, ?_⟩)
              rcases hre with h | ⟨pc, pcor, h⟩ | ⟨m, h⟩
              · exact Or.inl h
              · exact Or.inr (Or.inl ⟨_, pc, pcor, h⟩)
              · exact Or.inr (Or.inr ⟨m, h⟩)

/-- Any successful scan-loop iteration issues at most one challenge
transaction. -/
theorem processEntry_challengeCount (ch : Chain) (st : EngineState) (i : Nat)
    (st2 : EngineState) (effs : List Effect)
    (hrun : processEntry ch st i = .ok (st2, effs)) :
    challengeCount effs ≤ 1 := by
  rcases processEntry_effects_shape ch st i st2 effs hrun with h | h | h
  · simp [h, challengeCount]
  · simp [h, challengeCount]
  · obtain ⟨ce, re, heq, hce, hre⟩ := h
    subst heq
    have h1 : challengeCount ce ≤ 1 := by
      rcases hce with h | h <;> simp [h, challengeCount]
    have h2 : challengeCount re = 0 := by
      rcases hre with h | ⟨li, pc, pcor, h⟩ | ⟨m, h⟩ <;>
        simp [h, challengeCount]
    simp only [challengeCount, List.filter_append, List.length_append] at *
    omega

theorem scanIndices_mem (w c i : Nat) :
    i ∈ scanIndices w c ↔ w ≤ i ∧ i < w + (c - w) := by
  simp [scanIndices, List.mem_range'_1]

theorem scanIndices_nodup (w c : Nat) : (scanIndices w c).Nodup :=
  List.nodup_range' w (c - w)

theorem processRange_weight_notmem (f : List Effect → Nat) (ch : Chain) :
    ∀ (l : List Nat) (st : EngineState) (i : Nat), i ∉ l →
      weightFor f (processRange ch st l).1 i = 0 := by
  intro l
  induction l with
  | nil => intro st i _; rfl
  | cons j rest ih =>
    intro st i hni
    rw [List.mem_cons, not_or] at hni
    obtain ⟨hij, hrest⟩ := hni
    show weightFor f (processRange ch st (j :: rest)).1 i = 0
    unfold processRange
    cases hpe : processEntry ch st j with
    | err s => simp [weightFor]
    | crash s => simp [weightFor]
    | ok a =>
      obtain ⟨st1, effs⟩ := a
      dsimp only
      rw [weightFor_cons, if_neg (fun h => hij h.symm)]
      simpa using ih st1 i hrest

theorem processRange_weight_le (f : List Effect → Nat)
    (hf : ∀ ch st i st2 effs,
      processEntry ch st i = .ok (st2, effs) → f effs ≤ 1)
    (ch : Chain) :
    ∀ (l : List Nat) (st : EngineState) (i : Nat), l.Nodup →
      weightFor f (processRange ch st l).1 i ≤ 1 := by
  intro l
  induction l with
  | nil => intro st i _; simp [processRange, weightFor]
  | cons j rest ih =>
    intro st i hnd
    rw [List.nodup_cons] at hnd
    obtain ⟨hjrest, hrest⟩ := hnd
    unfold processRange
    cases hpe : processEntry ch st j with
    | err s => simp [weightFor]
    | crash s => simp [weightFor]
    | ok a =>
      obtain ⟨st1, effs⟩ := a
      dsimp only
      rw [weightFor_cons]
      by_cases hij : j = i
      · subst hij
        rw [if_pos rfl,
          processRange_weight_notmem f ch rest st1 j hjrest]
        exact Nat.add_le_add (hf ch st j st1 effs hpe) (Nat.le_refl 0)
      · rw [if_neg hij, Nat.zero_add]
        exact ih st1 i hrest

theorem runPasses_weight (f : List Effect → Nat)
    (hf : ∀ ch st i st2 effs,
      processEntry ch st i = .ok (st2, effs) → f effs ≤ 1) :
    ∀ (passes : List (Chain × Nat)) (st : EngineState) (w i : Nat),
      List.Chain' (· ≤ ·) (w :: passes.map Prod.snd) →
      weightFor f (runPasses ⟨st, w⟩ passes).1 i ≤ 1 ∧
      (i < w → weightFor f (runPasses ⟨st, w⟩ passes).1 i = 0) := by
  intro passes
  induction passes with
  | nil => intro st w i _; exact ⟨by simp [runPasses, weightFor],
      fun _ => rfl⟩
  | cons pass rest ih =>
    intro st w i hmono
    obtain ⟨ch, c⟩ := pass
    rw [List.map_cons, List.chain'_cons] at hmono
    obtain ⟨hwc, hchain⟩ := hmono
    have hnotlt : i < w → i ∉ scanIndices w c := by
      intro hlt hmem
      rw [scanIndices_mem] at hmem
      omega
    have hnotge : c ≤ i → i ∉ scanIndices w c := by
      intro hge hmem
      rw [scanIndices_mem] at hmem
      omega
    unfold runPasses
    dsimp only
    cases hpr : processRange ch st (scanIndices w c) with
    | mk trace out =>
      have htr1 : weightFor f trace i ≤ 1 := by
        have := processRange_weight_le f hf ch (scanIndices w c) st i
          (scanIndices_nodup w c)
        rwa [hpr] at this
      have htr0lt : i < w → weightFor f trace i = 0 := by
        intro hlt
        have := processRange_weight_notmem f ch (scanIndices w c) st i
          (hnotlt hlt)
        rwa [hpr] at this
      have htr0ge : c ≤ i → weightFor f trace i = 0 := by
        intro hge
        have := processRange_weight_notmem f ch (scanIndices w c) st i
          (hnotge hge)
        rwa [hpr] at this
      cases out with
      | err s => exact ⟨htr1, htr0lt⟩
      | crash s => exact ⟨htr1, htr0lt⟩
      | ok e1 =>
        dsimp only
        rw [weightFor_append]
        have hih := ih e1 c i hchain
        constructor
        · by_cases hic : i < c
          · rw [hih.2 hic]
            omega
          · rw [htr0ge (by omega)]
            simpa using hih.1
        · intro hlt
          rw [htr0lt hlt, hih.2 (by omega)]

/-! ## Claim theorems -/

/-- Claim C1: for every proposal appended by a scan step, an oracle mismatch at the
claimed block forces `correct = false`; with oracle agreement a child
proposal inherits the parent value of `correct`, and a root proposal (whose
`parent_local_index` equals its own local index) gets `correct = true`. -/
theorem correctness_rule
    (ch : Chain) (st : EngineState) (i : Nat) (st2 : EngineState)
    (effs : List Effect) (p : Proposal)
    (hrun : processEntry ch st i = .ok (st2, effs))
    (happ : st2.proposal_tree = st.proposal_tree ++ [p]) :
    (ch.outputAtBlock p.output_block_number ≠ p.output_root →
      p.correct = false) ∧
    (ch.outputAtBlock p.output_block_number = p.output_root →
      p.parent_local_index ≠ st.proposal_tree.length →
      ∀ q, st.proposal_tree.get? p.parent_local_index = some q →
        p.correct = q.correct) ∧
    (ch.outputAtBlock p.output_block_number = p.output_root →
      p.parent_local_index = st.proposal_tree.length →
      p.correct = true) := by
  obtain ⟨c0, ce, re, hclass, hcc, hcd, hprd, heffs, hfi, hga, hor, hobn,
    hpi⟩ := processEntry_ok_append ch st i st2 effs p hrun happ
  have hspec := computeCorrect_spec st _ _ _ _ _ hcc
  rw [← hobn, ← hor] at hspec
  exact hspec

theorem correctness_rule_witness :
    (chRootOk.outputAtBlock pRootOk.output_block_number ≠
      pRootOk.output_root → pRootOk.correct = false) ∧
    (chRootOk.outputAtBlock pRootOk.output_block_number =
      pRootOk.output_root →
      pRootOk.parent_local_index ≠ (EngineState.mk [] []).proposal_tree.length →
      ∀ q, (EngineState.mk [] []).proposal_tree.get?
        pRootOk.parent_local_index = some q →
        pRootOk.correct = q.correct) ∧
    (chRootOk.outputAtBlock pRootOk.output_block_number =
      pRootOk.output_root →
      pRootOk.parent_local_index = (EngineState.mk [] []).proposal_tree.length →
      pRootOk.correct = true) :=
  correctness_rule chRootOk ⟨[], []⟩ 0 ⟨[pRootOk], [(0, 0)]⟩ [] pRootOk
    (by decide) (by decide)

/-- Claim C3: across an entire multi-pass run of the validator loop, provided the
observed game counts are non-decreasing (the registry is append-only), at
most one challenge transaction is ever issued while processing any given
factory index: the watermark only advances, so no index is rescanned. -/
theorem challenge_at_most_once (st0 : EngineState) (w : Nat)
    (passes : List (Chain × Nat)) (i : Nat)
    (hmono : List.Chain' (· ≤ ·) (w :: passes.map Prod.snd)) :
    challengesFor (runPasses ⟨st0, w⟩ passes).1 i ≤ 1 :=
  (runPasses_weight challengeCount
    (fun ch st j st2 effs h => processEntry_challengeCount ch st j st2 effs h)
    passes st0 w i hmono).1

theorem challenge_at_most_once_witness :
    challengesFor (runPasses ⟨⟨[], []⟩, 0⟩ [(chRootOk, 1), (chRootOk, 2)]).1
      0 ≤ 1 :=
  challenge_at_most_once ⟨[], []⟩ 0 [(chRootOk, 1), (chRootOk, 2)] 0
    (by simp [List.chain'_cons])

/-- Claim C6 counterexample: an unrecognized auxiliary-payload length is NOT merely
logged and skipped — `handle_proposals` bails, which is fatal to the
validator (validate.rs line 330). -/
theorem unrecognized_extra_data_cex :
    processEntry chBadExtra ⟨[], []⟩ 0 =
      .err "Unexpected extra data length" ∧
    (processEntry chBadExtra ⟨[], []⟩ 0).isOk = false := by
  exact ⟨by decide, by decide⟩

/-- Claim C6 amended: when a scanned entry of the configured game type has an
auxiliary payload of unrecognized byte length (neither 0x10 nor 0x20), the
scan step fails with the fatal `bail!` error "Unexpected extra data length",
terminating the validator, rather than skipping the entry. -/
theorem unrecognized_extra_data_fatal (ch : Chain) (st : EngineState)
    (i : Nat)
    (hgt : ch.gameTypeAt i = FAULT_PROOF_GAME_TYPE)
    (h10 : ch.extraDataLen (ch.gameAddrAt i) ≠ 0x10)
    (h20 : ch.extraDataLen (ch.gameAddrAt i) ≠ 0x20) :
    processEntry ch st i = .err "Unexpected extra data length" := by
  unfold processEntry
  rw [if_neg (by simp [hgt])]
  dsimp only
  have hclass : classifyEntry ch st (ch.gameAddrAt i)
      st.proposal_tree.length = .err "Unexpected extra data length" := by
    unfold classifyEntry
    rw [if_neg h10, if_neg h20]
  rw [hclass]

theorem unrecognized_extra_data_fatal_witness :
    processEntry chBadExtra ⟨[], []⟩ 0 =
      .err "Unexpected extra data length" :=
  unrecognized_extra_data_fatal chBadExtra ⟨[], []⟩ 0 (by decide) (by decide)
    (by decide)

/-- Claim C8: a child proposal whose parent factory index is absent from the local
map is logged and skipped without failing the process (the Engine state is
unchanged), and across a monotone multi-pass run every factory index is
processed at most once, so the skipped entry is never retried. -/
theorem parent_not_found_skip :
    (∀ (ch : Chain) (st : EngineState) (i : Nat),
      ch.gameTypeAt i = FAULT_PROOF_GAME_TYPE →
      ch.extraDataLen (ch.gameAddrAt i) = 0x10 →
      st.proposal_index.lookup (ch.parentGameIndex (ch.gameAddrAt i)) =
        none →
      processEntry ch st i = .ok (st, [Effect.logSkipNoParent i])) ∧
    (∀ (st0 : EngineState) (w : Nat) (passes : List (Chain × Nat)) (i : Nat),
      List.Chain' (· ≤ ·) (w :: passes.map Prod.snd) →
      timesProcessed (runPasses ⟨st0, w⟩ passes).1 i ≤ 1) := by
  constructor
  · intro ch st i hgt h10 hnone
    unfold processEntry
    rw [if_neg (by simp [hgt])]
    dsimp only
    have hclass : classifyEntry ch st (ch.gameAddrAt i)
        st.proposal_tree.length = .ok none := by
      unfold classifyEntry
      rw [if_pos h10, hnone]
    rw [hclass]
  · intro st0 w passes i hmono
    exact (runPasses_weight (fun _ => 1) (fun _ _ _ _ _ _ => Nat.le_refl 1)
      passes st0 w i hmono).1

theorem parent_not_found_skip_witness :
    processEntry chNoParent ⟨[], []⟩ 0 =
      .ok (⟨[], []⟩, [Effect.logSkipNoParent 0]) ∧
    timesProcessed (runPasses ⟨⟨[], []⟩, 0⟩ [(chNoParent, 1)]).1 0 ≤ 1 :=
  ⟨parent_not_found_skip.1 chNoParent ⟨[], []⟩ 0 (by decide) (by decide)
      (by decide),
   parent_not_found_skip.2 ⟨[], []⟩ 0 [(chNoParent, 1)] 0
      (by simp [List.chain'_cons])⟩

/-- Claim C4: a `ProofReady` message leads to a proof transaction only while the
on-chain proof status of the proposal is still unproven (0); for an
already-proven proposal the message is a no-op apart from a log line. -/
theorem proof_submission_idempotent (ch : Chain) (tree : List Proposal)
    (li : Nat) (r : Receipt) (p : Proposal)
    (hp : tree.get? li = some p) (hj : r.journal ≠ []) :
    (ch.proofStatus p.game_address ≠ 0 →
      processProofMessage ch tree (Message.Proof li r) =
        .ok [Effect.logSkipProven li]) ∧
    (∀ effs, processProofMessage ch tree (Message.Proof li r) = .ok effs →
      (∃ a s b, Effect.proveTx a s b ∈ effs) →
      ch.proofStatus p.game_address = 0) := by
  obtain ⟨b, hb⟩ : ∃ b, r.journal.getLast? = some b := by
    cases hlast : r.journal.getLast? with
    | none => exact absurd (List.getLast?_eq_none_iff.mp hlast) hj
    | some b => exact ⟨b, rfl⟩
  constructor
  · intro hstat
    unfold processProofMessage
    dsimp only
    rw [hp, hb]
    dsimp only
    rw [if_neg hstat]
  · intro effs hok hmem
    by_contra hstat
    unfold processProofMessage at hok
    dsimp only at hok
    rw [hp, hb] at hok
    dsimp only at hok
    rw [if_neg hstat] at hok
    cases hok
    obtain ⟨a, s, bb, hmem⟩ := hmem
    simp at hmem

theorem proof_submission_idempotent_witness :
    (chProven.proofStatus pRootOk.game_address ≠ 0 →
      processProofMessage chProven [pRootOk] (Message.Proof 0 rFault) =
        .ok [Effect.logSkipProven 0]) ∧
    (∀ effs, processProofMessage chProven [pRootOk] (Message.Proof 0 rFault) =
        .ok effs →
      (∃ a s b, Effect.proveTx a s b ∈ effs) →
      chProven.proofStatus pRootOk.game_address = 0) :=
  proof_submission_idempotent chProven [pRootOk] 0 rFault pRootOk (by decide)
    (by decide)

/-- Claim C9: the proof-completion step classifies a receipt by the trailing byte
of its journal: a nonzero trailing byte yields a fault-proof submission
(`is_fault_proof = true`), a zero trailing byte a validity-proof submission
(`is_fault_proof = false`). -/
theorem fault_proof_classification (ch : Chain) (tree : List Proposal)
    (li : Nat) (r : Receipt) (p : Proposal) (b : Nat) (s : List Nat)
    (hp : tree.get? li = some p)
    (hlast : r.journal.getLast? = some b)
    (hseal : r.groth16Seal = some s)
    (hstatus : ch.proofStatus p.game_address = 0) :
    (b ≠ 0 → processProofMessage ch tree (Message.Proof li r) =
      .ok [Effect.proveTx p.game_address s true]) ∧
    (b = 0 → processProofMessage ch tree (Message.Proof li r) =
      .ok [Effect.proveTx p.game_address s false]) := by
  constructor
  · intro hb
    unfold processProofMessage
    dsimp only
    rw [hp, hlast]
    dsimp only
    rw [if_pos hstatus, hseal]
    have hd : decide (b > 0) = true := by simp [Nat.pos_of_ne_zero hb]
    rw [hd]
  · intro hb
    subst hb
    unfold processProofMessage
    dsimp only
    rw [hp, hlast]
    dsimp only
    rw [if_pos hstatus, hseal]
    rfl

theorem fault_proof_classification_witness :
    (1 ≠ 0 → processProofMessage chRootOk [pRootOk] (Message.Proof 0 rFault) =
      .ok [Effect.proveTx pRootOk.game_address [9] true]) ∧
    (1 = 0 → processProofMessage chRootOk [pRootOk] (Message.Proof 0 rFault) =
      .ok [Effect.proveTx pRootOk.game_address [9] false]) :=
  fault_proof_classification chRootOk [pRootOk] 0 rFault pRootOk 1 [9]
    (by decide) (by decide) (by decide) (by decide)

/-- Claim C10: with a valid local index, the proof-completion step panics exactly
when the journal of the received receipt is empty: the trailing-byte read is an
unchecked `unwrap`, so an empty public output crashes the Engine task. -/
theorem empty_journal_crashes (ch : Chain) (tree : List Proposal)
    (li : Nat) (r : Receipt) (hlt : li < tree.length) :
    (processProofMessage ch tree (Message.Proof li r)).isCrash = true ↔
      r.journal = [] := by
  obtain ⟨p, hp⟩ : ∃ p, tree.get? li = some p := by
    cases hg : tree.get? li with
    | none => rw [List.get?_eq_none] at hg; omega
    | some p => exact ⟨p, rfl⟩
  constructor
  · intro hcrash
    by_contra hj
    obtain ⟨b, hb⟩ : ∃ b, r.journal.getLast? = some b := by
      cases hlast : r.journal.getLast? with
      | none => exact absurd (List.getLast?_eq_none_iff.mp hlast) hj
      | some b => exact ⟨b, rfl⟩
    unfold processProofMessage at hcrash
    dsimp only at hcrash
    rw [hp, hb] at hcrash
    dsimp only at hcrash
    by_cases hstat : ch.proofStatus p.game_address = 0
    · rw [if_pos hstat] at hcrash
      cases hseal : r.groth16Seal with
      | none => rw [hseal] at hcrash; simp [Outcome.isCrash] at hcrash
      | some s => rw [hseal] at hcrash; simp [Outcome.isCrash] at hcrash
    · rw [if_neg hstat] at hcrash
      simp [Outcome.isCrash] at hcrash
  · intro hj
    have hlast : r.journal.getLast? = none := by
      rw [List.getLast?_eq_none_iff]
      exact hj
    unfold processProofMessage
    dsimp only
    rw [hp, hlast]
    rfl

theorem empty_journal_crashes_witness :
    (processProofMessage chRootOk [pRootOk]
      (Message.Proof 0 rEmpty)).isCrash = true ↔ rEmpty.journal = [] :=
  empty_journal_crashes chRootOk [pRootOk] 0 rEmpty (by decide)

/-- A successful `proofRequestDecision` never issues a challenge. -/
theorem proofRequestDecision_challengeCount (ch : Chain) (st1 : EngineState)
    (li pli obn : Nat) (oroot : Hash) (a : Addr) (c1 pv : Bool)
    (re : List Effect)
    (h : proofRequestDecision ch st1 li pli obn oroot a c1 pv = .ok re) :
    challengeCount re = 0 := by
  rcases proofRequestDecision_effects ch st1 li pli obn oroot a c1 pv re h
    with heq | ⟨pc, pcor, heq⟩ | ⟨m, heq⟩ <;> simp [heq, challengeCount]

/-- Claim C2: a scan step issues a challenge transaction against a proposal exactly
when its computed `correct` flag is false and its observed `challenged` flag
is false; on success the local `challenged` flag becomes true, and a failed
challenge submission is a propagated fatal error. -/
theorem challenge_decision_rule :
    (∀ (ch : Chain) (st : EngineState) (i : Nat) (st2 : EngineState)
        (effs : List Effect) (p : Proposal) (challenged0 : Bool),
      processEntry ch st i = .ok (st2, effs) →
      st2.proposal_tree = st.proposal_tree ++ [p] →
      classifyEntry ch st (ch.gameAddrAt i) st.proposal_tree.length =
        .ok (some (p.parent_local_index, challenged0, p.proven)) →
      (p.correct = false ∧ challenged0 = false →
        Effect.challengeTx p.game_address (ch.initBond / 2) ∈ effs ∧
        p.challenged = true) ∧
      (¬(p.correct = false ∧ challenged0 = false) →
        challengeCount effs = 0 ∧ p.challenged = challenged0)) ∧
    (∀ (ch : Chain) (st : EngineState) (i : Nat) (pli : Nat) (pv : Bool),
      ch.gameTypeAt i = FAULT_PROOF_GAME_TYPE →
      classifyEntry ch st (ch.gameAddrAt i) st.proposal_tree.length =
        .ok (some (pli, false, pv)) →
      computeCorrect st
        (ch.outputAtBlock (ch.l2BlockNumber (ch.gameAddrAt i)))
        (ch.rootClaim (ch.gameAddrAt i)) pli st.proposal_tree.length =
        .ok false →
      ch.challengeOk (ch.gameAddrAt i) = false →
      processEntry ch st i = .err "challenge") := by
  constructor
  · intro ch st i st2 effs p challenged0 hrun happ hclass
    obtain ⟨c0, ce, re, hclass2, hcc, hcd, hprd, heffs, hfi, hga, hor, hobn,
      hpi⟩ := processEntry_ok_append ch st i st2 effs p hrun happ
    rw [hclass] at hclass2
    rw [Outcome.ok.injEq, Option.some.injEq, Prod.mk.injEq, Prod.mk.injEq]
      at hclass2
    obtain ⟨-, hc0, -⟩ := hclass2
    subst hc0
    have hspec := challengeDecision_ok_spec ch (ch.gameAddrAt i) p.correct
      challenged0 p.challenged ce hcd
    constructor
    · rintro ⟨hcor, hch0⟩
      obtain ⟨-, hch, hce⟩ := hspec.1 ⟨hcor, hch0⟩
      subst heffs
      rw [hce, hga]
      exact ⟨by simp, hch⟩
    · intro hn
      have hor2 : p.correct = true ∨ challenged0 = true := by
        cases hcv : p.correct with
        | true => exact Or.inl rfl
        | false =>
          cases hch0 : challenged0 with
          | true => exact Or.inr rfl
          | false => exact absurd ⟨hcv, hch0⟩ hn
      obtain ⟨hch, hce⟩ := hspec.2 hor2
      subst heffs
      rw [hce]
      refine ⟨?_, hch⟩
      simpa [challengeCount] using
        proofRequestDecision_challengeCount ch st2 st.proposal_tree.length
          p.parent_local_index p.output_block_number p.output_root
          (ch.gameAddrAt i) p.challenged p.proven re hprd
  · intro ch st i pli pv hgt hclass hcc hnok
    unfold processEntry
    rw [if_neg (by simp [hgt])]
    dsimp only
    rw [hclass]
    dsimp only
    rw [hcc]
    dsimp only
    rw [challengeDecision_err ch (ch.gameAddrAt i) hnok]

theorem challenge_decision_rule_witness :
    ((pRootBad.correct = false ∧ false = false →
      Effect.challengeTx pRootBad.game_address (chRootBad.initBond / 2) ∈
        [Effect.challengeTx 100 5] ∧
      pRootBad.challenged = true) ∧
     (¬(pRootBad.correct = false ∧ false = false) →
      challengeCount [Effect.challengeTx 100 5] = 0 ∧
      pRootBad.challenged = false)) ∧
    processEntry chRootBadNoOk ⟨[], []⟩ 0 = .err "challenge" :=
  ⟨challenge_decision_rule.1 chRootBad ⟨[], []⟩ 0 ⟨[pRootBad], [(0, 0)]⟩
      [Effect.challengeTx 100 5] pRootBad false (by decide) (by decide)
      (by decide),
   challenge_decision_rule.2 chRootBadNoOk ⟨[], []⟩ 0 0 false (by decide)
      (by decide) (by decide) (by decide)⟩

/-- The effects of a successful `challengeDecision` contain no proof
request. -/
theorem challengeDecision_hasProofRequest (ch : Chain) (a : Addr)
    (c c0 c1 : Bool) (ce : List Effect)
    (h : challengeDecision ch a c c0 = .ok (c1, ce)) :
    hasProofRequest ce = false := by
  rcases challengeDecision_effects ch a c c0 c1 ce h with heq | heq <;>
    simp [heq, hasProofRequest]

/-- Claim C5: a proof request is sent for a discovered proposal exactly when it is
challenged and unproven, this validator is the recorded on-chain challenger,
and the starting output root of the proposal matches the oracle at the starting
block; when the starting root mismatches, the request is deferred and the
challenge status of the parent is logged instead. -/
theorem proof_request_rule (ch : Chain) (st : EngineState) (i : Nat)
    (st2 : EngineState) (effs : List Effect) (p : Proposal)
    (hrun : processEntry ch st i = .ok (st2, effs))
    (happ : st2.proposal_tree = st.proposal_tree ++ [p]) :
    (hasProofRequest effs = true ↔
      p.challenged = true ∧ p.proven = false ∧
      ch.challenger p.game_address = ch.validatorAddress ∧
      ch.startingRootHash p.game_address =
        ch.outputAtBlock (ch.startingBlockNumber p.game_address)) ∧
    (p.challenged = true ∧ p.proven = false ∧
      ch.challenger p.game_address = ch.validatorAddress ∧
      ch.startingRootHash p.game_address =
        ch.outputAtBlock (ch.startingBlockNumber p.game_address) →
      Effect.proofRequest (Message.Proposal st.proposal_tree.length
        (ch.l1Head p.game_address)
        (ch.blockHash (ch.startingBlockNumber p.game_address))
        (ch.startingRootHash p.game_address)
        p.output_block_number p.output_root) ∈ effs) ∧
    (p.challenged = true ∧ p.proven = false ∧
      ch.challenger p.game_address = ch.validatorAddress ∧
      ch.startingRootHash p.game_address ≠
        ch.outputAtBlock (ch.startingBlockNumber p.game_address) →
      hasProofRequest effs = false ∧
      ∃ q, st2.proposal_tree.get? p.parent_local_index = some q ∧
        Effect.logDeferProving st.proposal_tree.length q.challenged
          q.correct ∈ effs) := by
  obtain ⟨c0, ce, re, hclass, hcc, hcd, hprd, heffs, hfi, hga, hor, hobn,
    hpi⟩ := processEntry_ok_append ch st i st2 effs p hrun happ
  rw [hga]
  have hspec := proofRequestDecision_spec ch st2 st.proposal_tree.length
    p.parent_local_index p.output_block_number p.output_root
    (ch.gameAddrAt i) p.challenged p.proven re hprd
  have hceno : hasProofRequest ce = false :=
    challengeDecision_hasProofRequest ch (ch.gameAddrAt i) p.correct c0
      p.challenged ce hcd
  subst heffs
  refine ⟨?_, ?_, ?_⟩
  · constructor
    · intro hreq
      rw [hasProofRequest, List.any_append] at hreq
      rw [hasProofRequest] at hceno
      rw [hceno, Bool.false_or] at hreq
      by_cases hcond : p.challenged = true ∧ p.proven = false ∧
          ch.challenger (ch.gameAddrAt i) = ch.validatorAddress
      · obtain ⟨h1, h2, h3⟩ := hcond
        refine ⟨h1, h2, h3, ?_⟩
        by_contra hne
        obtain ⟨q, hq, hre⟩ := (hspec.1 ⟨h1, h2, h3⟩).1 hne
        rw [hre] at hreq
        simp [hasProofRequest] at hreq
      · rw [hspec.2 hcond] at hreq
        simp [hasProofRequest] at hreq
    · rintro ⟨h1, h2, h3, h4⟩
      rw [(hspec.1 ⟨h1, h2, h3⟩).2 h4]
      simp [hasProofRequest, List.any_append]
  · rintro ⟨h1, h2, h3, h4⟩
    rw [(hspec.1 ⟨h1, h2, h3⟩).2 h4]
    simp
  · rintro ⟨h1, h2, h3, h4⟩
    obtain ⟨q, hq, hre⟩ := (hspec.1 ⟨h1, h2, h3⟩).1 h4
    subst hre
    refine ⟨?_, q, hq, by simp⟩
    rw [hasProofRequest, List.any_append]
    rw [hasProofRequest] at hceno
    rw [hceno, Bool.false_or]
    simp [hasProofRequest]

theorem proof_request_rule_witness :
    (hasProofRequest [Effect.challengeTx 100 5,
        Effect.proofRequest (Message.Proposal 0 1 3 2 10 5)] = true ↔
      pRootBad.challenged = true ∧ pRootBad.proven = false ∧
      chRootBadReq.challenger pRootBad.game_address =
        chRootBadReq.validatorAddress ∧
      chRootBadReq.startingRootHash pRootBad.game_address =
        chRootBadReq.outputAtBlock
          (chRootBadReq.startingBlockNumber pRootBad.game_address)) ∧
    (pRootBad.challenged = true ∧ pRootBad.proven = false ∧
      chRootBadReq.challenger pRootBad.game_address =
        chRootBadReq.validatorAddress ∧
      chRootBadReq.startingRootHash pRootBad.game_address =
        chRootBadReq.outputAtBlock
          (chRootBadReq.startingBlockNumber pRootBad.game_address) →
      Effect.proofRequest (Message.Proposal 0 1 3 2 10 5) ∈
        [Effect.challengeTx 100 5,
         Effect.proofRequest (Message.Proposal 0 1 3 2 10 5)]) ∧
    (pRootBad.challenged = true ∧ pRootBad.proven = false ∧
      chRootBadReq.challenger pRootBad.game_address =
        chRootBadReq.validatorAddress ∧
      chRootBadReq.startingRootHash pRootBad.game_address ≠
        chRootBadReq.outputAtBlock
          (chRootBadReq.startingBlockNumber pRootBad.game_address) →
      hasProofRequest [Effect.challengeTx 100 5,
        Effect.proofRequest (Message.Proposal 0 1 3 2 10 5)] = false ∧
      ∃ q, [pRootBad].get? pRootBad.parent_local_index = some q ∧
        Effect.logDeferProving 0 q.challenged q.correct ∈
          [Effect.challengeTx 100 5,
           Effect.proofRequest (Message.Proposal 0 1 3 2 10 5)]) :=
  proof_request_rule chRootBadReq ⟨[], []⟩ 0 ⟨[pRootBad], [(0, 0)]⟩
    [Effect.challengeTx 100 5,
     Effect.proofRequest (Message.Proposal 0 1 3 2 10 5)] pRootBad
    (by decide) (by decide)

/-- What a successful classification implies: either a child entry (payload
0x10) whose parent was found in the map and whose flags come from the chain,
or a root (setup) entry (payload 0x20) with the self-referential parent and
cleared flags. -/
theorem classifyEntry_cases (ch : Chain) (st : EngineState) (ga : Addr)
    (li pli : Nat) (c0 pv : Bool)
    (h : classifyEntry ch st ga li = .ok (some (pli, c0, pv))) :
    (ch.extraDataLen ga = 0x10 ∧
      st.proposal_index.lookup (ch.parentGameIndex ga) = some pli ∧
      c0 = decide (ch.challengedAt ga > 0) ∧
      pv = decide (ch.provenAt ga > 0)) ∨
    (ch.extraDataLen ga = 0x20 ∧ pli = li ∧ c0 = false ∧ pv = false) := by
  unfold classifyEntry at h
  split at h
  · rename_i h10
    split at h
    · exact absurd h (by simp)
    · rename_i pli2 hlook
      rw [Outcome.ok.injEq, Option.some.injEq, Prod.mk.injEq,
        Prod.mk.injEq] at h
      obtain ⟨h1, h2, h3⟩ := h
      subst h1
      exact Or.inl ⟨h10, hlook, h2.symm, h3.symm⟩
  · split at h
    · rename_i h10 h20
      rw [Outcome.ok.injEq, Option.some.injEq, Prod.mk.injEq,
        Prod.mk.injEq] at h
      obtain ⟨h1, h2, h3⟩ := h
      exact Or.inr ⟨h20, h1.symm, h2.symm, h3.symm⟩
    · exact absurd h (by simp)

/-- A successful scan-loop iteration either leaves the Engine state unchanged
(a skip) or appends one proposal and one map binding. -/
theorem processEntry_ok_cases (ch : Chain) (st : EngineState) (i : Nat)
    (st2 : EngineState) (effs : List Effect)
    (hrun : processEntry ch st i = .ok (st2, effs)) :
    st2 = st ∨
    ∃ p, st2 = ⟨st.proposal_tree ++ [p],
      (i, st.proposal_tree.length) :: st.proposal_index⟩ := by
  unfold processEntry at hrun
  by_cases hgt : ch.gameTypeAt i ≠ FAULT_PROOF_GAME_TYPE
  · rw [if_pos hgt] at hrun
    cases hrun
    exact Or.inl rfl
  · rw [if_neg hgt] at hrun
    dsimp only at hrun
    cases hclass : classifyEntry ch st (ch.gameAddrAt i)
        st.proposal_tree.length with
    | err s => rw [hclass] at hrun; exact absurd hrun (by simp)
    | crash s => rw [hclass] at hrun; exact absurd hrun (by simp)
    | ok trip =>
      rw [hclass] at hrun
      cases trip with
      | none =>
        dsimp only at hrun
        cases hrun
        exact Or.inl rfl
      | some trip =>
        obtain ⟨pli, c0, pv⟩ := trip
        dsimp only at hrun
        cases hcc : computeCorrect st
            (ch.outputAtBlock (ch.l2BlockNumber (ch.gameAddrAt i)))
            (ch.rootClaim (ch.gameAddrAt i)) pli
            st.proposal_tree.length with
        | err s => rw [hcc] at hrun; exact absurd hrun (by simp)
        | crash s => rw [hcc] at hrun; exact absurd hrun (by simp)
        | ok correct =>
          rw [hcc] at hrun
          dsimp only at hrun
          cases hcd : challengeDecision ch (ch.gameAddrAt i) correct c0 with
          | err s => rw [hcd] at hrun; exact absurd hrun (by simp)
          | crash s => rw [hcd] at hrun; exact absurd hrun (by simp)
          | ok pair =>
            obtain ⟨challenged, ce⟩ := pair
            rw [hcd] at hrun
            dsimp only at hrun
            cases hprd : proofRequestDecision ch
                ⟨st.proposal_tree ++
                  [⟨i, ch.gameAddrAt i, pli, ch.rootClaim (ch.gameAddrAt i),
                    ch.l2BlockNumber (ch.gameAddrAt i), challenged, pv,
                    decide (ch.resolvedAt (ch.gameAddrAt i) > 0), correct⟩],
                  (i, st.proposal_tree.length) :: st.proposal_index⟩
                st.proposal_tree.length pli
                (ch.l2BlockNumber (ch.gameAddrAt i))
                (ch.rootClaim (ch.gameAddrAt i)) (ch.gameAddrAt i)
                challenged pv with
            | err s => rw [hprd] at hrun; exact absurd hrun (by simp)
            | crash s => rw [hprd] at hrun; exact absurd hrun (by simp)
            | ok re =>
              rw [hprd] at hrun
              dsimp only at hrun
              rw [Outcome.ok.injEq, Prod.mk.injEq] at hrun
              exact Or.inr ⟨_, hrun.1.symm⟩

/-- Claim C7: every appended proposal satisfies `parent_local_index ≤ local_index`
with equality exactly for root (setup, payload 0x20) proposals; a root
proposal is classified with `challenged = proven = false`; and the map/tree
invariants are preserved by every scan-loop iteration. -/
theorem tree_invariants :
    (∀ (ch : Chain) (st : EngineState) (ga : Addr) (li : Nat),
      ch.extraDataLen ga = 0x20 →
      classifyEntry ch st ga li = .ok (some (li, false, false))) ∧
    (∀ (ch : Chain) (st : EngineState) (i : Nat) (st2 : EngineState)
        (effs : List Effect) (p : Proposal),
      mapInv st →
      processEntry ch st i = .ok (st2, effs) →
      st2.proposal_tree = st.proposal_tree ++ [p] →
      p.parent_local_index ≤ st.proposal_tree.length ∧
      (p.parent_local_index = st.proposal_tree.length ↔
        ch.extraDataLen p.game_address = 0x20) ∧
      (ch.extraDataLen p.game_address = 0x20 → p.proven = false)) ∧
    (∀ (ch : Chain) (st : EngineState) (i : Nat) (st2 : EngineState)
        (effs : List Effect),
      mapInv st → treeInv st →
      processEntry ch st i = .ok (st2, effs) →
      mapInv st2 ∧ treeInv st2) := by
  have hb : ∀ (ch : Chain) (st : EngineState) (i : Nat) (st2 : EngineState)
      (effs : List Effect) (p : Proposal),
      mapInv st →
      processEntry ch st i = .ok (st2, effs) →
      st2.proposal_tree = st.proposal_tree ++ [p] →
      p.parent_local_index ≤ st.proposal_tree.length ∧
      (p.parent_local_index = st.proposal_tree.length ↔
        ch.extraDataLen p.game_address = 0x20) ∧
      (ch.extraDataLen p.game_address = 0x20 → p.proven = false) := by
    intro ch st i st2 effs p hmap hrun happ
    obtain ⟨c0, ce, re, hclass, hcc, hcd, hprd, heffs, hfi, hga, hor, hobn,
      hpi⟩ := processEntry_ok_append ch st i st2 effs p hrun happ
    rw [hga]
    rcases classifyEntry_cases ch st (ch.gameAddrAt i)
        st.proposal_tree.length p.parent_local_index c0 p.proven hclass with
      ⟨h10, hlook, hc0, hpv⟩ | ⟨h20, hpli, hc0, hpv⟩
    · have hlt := hmap _ _ hlook
      refine ⟨Nat.le_of_lt hlt, ⟨fun heq => absurd heq (by omega), ?_⟩, ?_⟩
      · intro h20
        rw [h10] at h20
        exact absurd h20 (by norm_num)
      · intro h20
        rw [h10] at h20
        exact absurd h20 (by norm_num)
    · exact ⟨Nat.le_of_eq hpli, ⟨fun _ => h20, fun _ => hpli⟩, fun _ => hpv⟩
  refine ⟨?_, hb, ?_⟩
  · intro ch st ga li h20
    unfold classifyEntry
    rw [if_neg (by rw [h20]; norm_num), if_pos h20]
  · intro ch st i st2 effs hmap htree hrun
    rcases processEntry_ok_cases ch st i st2 effs hrun with heq | ⟨p, heq⟩
    · subst heq
      exact ⟨hmap, htree⟩
    · subst heq
      have hple : p.parent_local_index ≤ st.proposal_tree.length :=
        (hb ch st i ⟨st.proposal_tree ++ [p],
          (i, st.proposal_tree.length) :: st.proposal_index⟩ effs p hmap
          hrun rfl).1
      constructor
      · intro fi li hlook
        simp only [List.lookup] at hlook
        cases hbe : fi == i with
        | true =>
          rw [hbe] at hlook
          simp only [Option.some.injEq] at hlook
          simp [← hlook]
        | false =>
          rw [hbe] at hlook
          have := hmap fi li hlook
          simp only [List.length_append, List.length_cons,
            List.length_nil]
          omega
      · intro k q hq
        simp only at hq
        by_cases hk : k < st.proposal_tree.length
        · rw [List.get?_append hk] at hq
          exact htree k q hq
        · by_cases hk2 : k = st.proposal_tree.length
          · subst hk2
            rw [List.get?_concat_length] at hq
            cases hq
            exact hple
          · rw [List.get?_eq_none.mpr (by simp; omega)] at hq
            cases hq

theorem tree_invariants_witness :
    classifyEntry chRootOk ⟨[], []⟩ 100 0 = .ok (some (0, false, false)) ∧
    (pRootOk.parent_local_index ≤ 0 ∧
      (pRootOk.parent_local_index = 0 ↔
        chRootOk.extraDataLen pRootOk.game_address = 0x20) ∧
      (chRootOk.extraDataLen pRootOk.game_address = 0x20 →
        pRootOk.proven = false)) ∧
    (mapInv ⟨[pRootOk], [(0, 0)]⟩ ∧ treeInv ⟨[pRootOk], [(0, 0)]⟩) :=
  ⟨tree_invariants.1 chRootOk ⟨[], []⟩ 100 0 (by decide),
   tree_invariants.2.1 chRootOk ⟨[], []⟩ 0 ⟨[pRootOk], [(0, 0)]⟩ [] pRootOk
     (fun fi li h => by simp [List.lookup] at h) (by decide) (by decide),
   tree_invariants.2.2 chRootOk ⟨[], []⟩ 0 ⟨[pRootOk], [(0, 0)]⟩ []
     (fun fi li h => by simp [List.lookup] at h)
     (fun k q h => by simp [List.get?_eq_none] at h) (by decide)⟩
